import Mathlib

/-!
# Verification of SEAT `composition_functions`

Shallow embedding of `SEAT/composition_functions.py` (symbol classifiers,
composite unfolding, pollution and enrichment transforms) over association
lists modelling Python dictionaries, with rationals in place of floats.

A Python `dict` is modelled as a `List (String × ℚ)` whose keys are pairwise
distinct (`DictKeys.Nodup` in the hypotheses); iteration order is the list
order, matching Python's insertion order.  Dictionary assignment
`d[k] = v` keeps the position of an existing key and appends a fresh one,
which `dictSet` reproduces.  Fallible Python code (KeyError, IndexError,
ZeroDivisionError) is modelled with `Except`.
-/

/-- The Python errors the embedded functions can raise. -/
inductive PyErr where
  | keyError : PyErr
  | indexError : PyErr
  | zeroDivision : PyErr
deriving DecidableEq, Repr

/-- A Python dict from nuclide/element symbols to abundance fractions. -/
abbrev Dict := List (String × ℚ)

/-- First-match lookup, `d[k]` when it succeeds. -/
def dictLookup : Dict → String → Option ℚ
  | [], _ => none
  | (k', v') :: t, k => if k' = k then some v' else dictLookup t k

/-- Python `k in d`. -/
def dictContains (d : Dict) (k : String) : Bool :=
  (dictLookup d k).isSome

/-- Total read used where Python's `d[k]` cannot fail (the key is iterated
from `d` itself); defaults to `0` outside the dict's key set. -/
def dictGet (d : Dict) (k : String) : ℚ :=
  (dictLookup d k).getD 0

/-- Python dict assignment `d[k] = v`: replace in place if the key exists,
append otherwise. -/
def dictSet : Dict → String → ℚ → Dict
  | [], k, v => [(k, v)]
  | (k', v') :: t, k, v => if k' = k then (k, v) :: t else (k', v') :: dictSet t k v

/-- The key list of a dict, in iteration order. -/
def dictKeys (d : Dict) : List String :=
  d.map Prod.fst

/-- `sum(d.values())`. -/
def dictValuesSum (d : Dict) : ℚ :=
  (d.map Prod.snd).sum

/-- Build a dict from a key-value sequence, later entries overwriting
earlier ones — the semantics of a Python dict comprehension. -/
def dictOfList (l : List (String × ℚ)) : Dict :=
  l.foldl (fun acc kv => dictSet acc kv.1 kv.2) []

/-! ## Symbol classifiers (`are_elements`, `are_nuclides`) -/

/-- Python `str.isalpha` restricted to ASCII: non-empty and all letters. -/
def pyIsAlpha (s : String) : Bool :=
  !s.data.isEmpty && s.data.all Char.isAlpha

/-- Python `str.isalnum` restricted to ASCII: non-empty and all letters or
digits. -/
def pyIsAlnum (s : String) : Bool :=
  !s.data.isEmpty && s.data.all (fun c => c.isAlpha || c.isDigit)

/-- `are_elements`: `bool(np.prod([k.isalpha() for k in keys]))`. -/
def are_elements (keys : List String) : Bool :=
  keys.all pyIsAlpha

/-- `are_nuclides`:
`bool(np.prod([k.isalnum() for k in keys])) and bool(np.prod([not k.isalpha() for k in keys]))`. -/
def are_nuclides (keys : List String) : Bool :=
  keys.all pyIsAlnum && keys.all (fun k => !pyIsAlpha k)

/-! ## `pollute` -/

/-- `pollute(abundance, pollutants)`:
```
polluted = pollutants.copy()
for nuclide, share in abundance.items():
    polluted[nuclide] = abundance[nuclide] - abundance[nuclide] * sum(pollutants.values())
return polluted
``` -/
def pollute (abundance pollutants : Dict) : Dict :=
  abundance.foldl
    (fun polluted p =>
      dictSet polluted p.1
        (dictGet abundance p.1 - dictGet abundance p.1 * dictValuesSum pollutants))
    pollutants

/-! ## `nuclide2element` (external collaborator)

`SEAT.nuclides` is not part of this repository snapshot; only its caller
`composition_functions.py` is. -/

/-- Modelled from the spec: the nuclide-naming collaborator's
`nuclide_to_element(nuclide_symbol) -> element_symbol`, where a nuclide
symbol is the "element symbol plus mass number (e.g., Fe56)" and an element
symbol is the "alphabetic chemical-element identifier"; the element symbol
is the leading alphabetic part of the nuclide symbol. -/
def nuclide2element (s : String) : String :=
  String.mk (s.data.takeWhile Char.isAlpha)

/-! ## `enrich` -/

/-- `sum([v - abundance[k] for k, v in enrichers.items()])`, `none` when some
enricher key is missing from `abundance` (Python KeyError). -/
def deltaSum (abundance : Dict) : List (String × ℚ) → Option ℚ
  | [] => some 0
  | (k, v) :: t =>
    match dictLookup abundance k, deltaSum abundance t with
    | some a, some r => some (v - a + r)
    | _, _ => none

/-- `sum([v for k, v in abundance.items() if nuclide2element(k) == enriched_element and k not in enrichers.keys()])`. -/
def absorberSum (abundance enrichers : Dict) (enriched_element : String) : ℚ :=
  ((abundance.filter
      (fun p => nuclide2element p.1 == enriched_element && !dictContains enrichers p.1)).map
    Prod.snd).sum

/-- One iteration of the `enrich` loop body on nuclide `p.1` with share
`p.2`, extending the accumulator dict `enriched`. -/
def enrichStep (abundance enrichers : Dict) (enriched_element : String)
    (enriched : Dict) (p : String × ℚ) : Except PyErr Dict :=
  if dictContains enrichers p.1 then
    match dictLookup enrichers p.1 with
    | some v => .ok (dictSet enriched p.1 v)
    | none => .error .keyError
  else if nuclide2element p.1 ≠ enriched_element then
    match dictLookup abundance p.1 with
    | some v => .ok (dictSet enriched p.1 v)
    | none => .error .keyError
  else
    match dictLookup abundance p.1 with
    | none => .error .keyError
    | some a =>
      match deltaSum abundance enrichers with
      | none => .error .keyError
      | some delta =>
        if absorberSum abundance enrichers enriched_element = 0 then
          .error .zeroDivision
        else
          .ok (dictSet enriched p.1
            (a - delta * p.2 / absorberSum abundance enrichers enriched_element))

/-- The `for nuclide, share in abundance.items()` loop of `enrich`. -/
def enrichLoop (abundance enrichers : Dict) (enriched_element : String)
    (enriched : Dict) : List (String × ℚ) → Except PyErr Dict
  | [] => .ok enriched
  | p :: rest =>
    match enrichStep abundance enrichers enriched_element enriched p with
    | .ok enriched' => enrichLoop abundance enrichers enriched_element enriched' rest
    | .error e => .error e

/-- `enrich(abundance, enrichers)`:
```
enriched = {}
enriched_element = nuclide2element(list(enrichers.keys())[0])
for nuclide, share in abundance.items():
    if nuclide in enrichers.keys():
        enriched[nuclide] = enrichers[nuclide]
    elif nuclide2element(nuclide) != enriched_element:
        enriched[nuclide] = abundance[nuclide]
    else:
        enriched[nuclide] = abundance[nuclide] - \
            sum([v - abundance[k] for k, v in enrichers.items()]) * share / \
            sum([v for k, v in abundance.items()
                 if nuclide2element(k) == enriched_element
                 and k not in enrichers.keys()])
return enriched
```
The division is written as an explicit zero test throwing `zeroDivision`,
Python's `ZeroDivisionError`. -/
def enrich (abundance enrichers : Dict) : Except PyErr Dict :=
  match enrichers with
  | [] => .error .indexError
  | (k₀, _) :: _ => enrichLoop abundance enrichers (nuclide2element k₀) [] abundance

/-- The value the `enrich` loop assigns to the abundance entry `p` when no
branch raises: the imposed enricher fraction, the untouched share for other
elements, or the share minus the redistributed mass `Δ · share / S`. -/
def enrichValue (abundance enrichers : Dict) (enriched_element : String)
    (p : String × ℚ) : ℚ :=
  if dictContains enrichers p.1 then dictGet enrichers p.1
  else if nuclide2element p.1 ≠ enriched_element then p.2
  else p.2 - (deltaSum abundance enrichers).getD 0 * p.2 /
    absorberSum abundance enrichers enriched_element

/-! ## `unfold_composite` -/

/-- `unfold_composite(composite)` over an explicit natural-abundance table:
`{k: v * share for element, share in composite.items() for k, v in getattr(SEAT.natural, element).items()}`.
The table `natural` is a parameter because `SEAT.natural` is external data;
it is modelled from the spec as a "mapping from element symbol to a nuclidic
composition giving that element's natural isotopic split", restricted to
composites whose elements all have an entry (the attribute error for an
unknown element is outside the claims considered here). -/
def unfold_composite (natural : String → Dict) (composite : Dict) : Dict :=
  dictOfList
    (composite.flatMap (fun es => (natural es.1).map (fun kv => (kv.1, kv.2 * es.2))))

/-- Iterated assignment `for (k, _) in l: acc[k] = g k`; the shape of the
`pollute` loop. -/
def foldlSet (g : String → ℚ) (acc : Dict) (l : List (String × ℚ)) : Dict :=
  l.foldl (fun acc p => dictSet acc p.1 (g p.1)) acc

/-! ## Basic dict lemmas -/

theorem dictLookup_dictSet (d : Dict) (k k' : String) (v : ℚ) :
    dictLookup (dictSet d k v) k' = if k = k' then some v else dictLookup d k' := by
  induction d with
  | nil => by_cases h : k = k' <;> simp [dictSet, dictLookup, h]
  | cons p t ih =>
    obtain ⟨k₀, v₀⟩ := p
    by_cases h₀ : k₀ = k
    · subst h₀
      by_cases h₁ : k₀ = k'
      · subst h₁; simp [dictSet, dictLookup]
      · simp [dictSet, dictLookup, h₁]
    · by_cases h₁ : k₀ = k'
      · subst h₁
        have hk : k ≠ k₀ := fun h => h₀ h.symm
        simp [dictSet, dictLookup, h₀, hk]
      · simp [dictSet, dictLookup, h₀, h₁, ih]

theorem dictSet_of_not_mem (d : Dict) (k : String) (v : ℚ)
    (h : k ∉ dictKeys d) : dictSet d k v = d ++ [(k, v)] := by
  induction d with
  | nil => simp [dictSet]
  | cons p t ih =>
    obtain ⟨k₀, v₀⟩ := p
    simp only [dictKeys, List.map_cons, List.mem_cons, not_or] at h
    have hk : k₀ ≠ k := fun hh => h.1 hh.symm
    simp [dictSet, hk, ih (by simpa [dictKeys] using h.2)]

theorem dictLookup_eq_some_of_mem {d : Dict} {k : String} {v : ℚ}
    (hnd : (dictKeys d).Nodup) (hm : (k, v) ∈ d) : dictLookup d k = some v := by
  induction d with
  | nil => simp at hm
  | cons p t ih =>
    obtain ⟨k₀, v₀⟩ := p
    simp only [dictKeys, List.map_cons, List.nodup_cons] at hnd
    rcases List.mem_cons.mp hm with h | h
    · injection h with h₁ h₂
      subst h₁; subst h₂
      simp [dictLookup]
    · have hk : k₀ ≠ k := by
        rintro rfl
        exact hnd.1 (by simpa using List.mem_map_of_mem Prod.fst h)
      simp [dictLookup, hk, ih hnd.2 h]

theorem dictLookup_isSome_iff {d : Dict} {k : String} :
    (dictLookup d k).isSome = true ↔ k ∈ dictKeys d := by
  induction d with
  | nil => simp [dictLookup, dictKeys]
  | cons p t ih =>
    obtain ⟨k₀, v₀⟩ := p
    by_cases h : k₀ = k
    · subst h; simp [dictLookup, dictKeys]
    · have h' : (k ∈ dictKeys ((k₀, v₀) :: t)) ↔ k ∈ dictKeys t := by
        simp only [dictKeys, List.map_cons, List.mem_cons]
        exact ⟨fun hh => hh.resolve_left (fun e => h e.symm), Or.inr⟩
      rw [h', ← ih]
      simp [dictLookup, h]

theorem dictContains_iff {d : Dict} {k : String} :
    dictContains d k = true ↔ k ∈ dictKeys d := by
  simpa [dictContains] using dictLookup_isSome_iff

theorem dictGet_eq_of_mem {d : Dict} {k : String} {v : ℚ}
    (hnd : (dictKeys d).Nodup) (hm : (k, v) ∈ d) : dictGet d k = v := by
  simp [dictGet, dictLookup_eq_some_of_mem hnd hm]

theorem dictLookup_append (d₁ d₂ : Dict) (k : String) :
    dictLookup (d₁ ++ d₂) k =
      match dictLookup d₁ k with
      | some v => some v
      | none => dictLookup d₂ k := by
  induction d₁ with
  | nil => simp [dictLookup]
  | cons p t ih =>
    obtain ⟨k₀, v₀⟩ := p
    by_cases h : k₀ = k
    · simp [dictLookup, h]
    · simp [dictLookup, h, ih]

/-! ## A fold of key-dependent dict assignments

`pollute` iterates a dict and assigns a value depending only on the key;
these lemmas characterise such folds. -/

theorem foldlSet_lookup_not_mem (g : String → ℚ) (acc : Dict)
    (l : List (String × ℚ)) (n : String) (h : n ∉ l.map Prod.fst) :
    dictLookup (foldlSet g acc l) n = dictLookup acc n := by
  induction l generalizing acc with
  | nil => rfl
  | cons p t ih =>
    simp only [List.map_cons, List.mem_cons, not_or] at h
    rw [foldlSet, List.foldl_cons, ← foldlSet, ih _ h.2,
      dictLookup_dictSet, if_neg (fun e => h.1 e.symm)]

theorem foldlSet_lookup_mem (g : String → ℚ) (acc : Dict)
    (l : List (String × ℚ)) (n : String) (s : ℚ)
    (hnd : (l.map Prod.fst).Nodup) (hm : (n, s) ∈ l) :
    dictLookup (foldlSet g acc l) n = some (g n) := by
  induction l generalizing acc with
  | nil => simp at hm
  | cons p t ih =>
    simp only [List.map_cons, List.nodup_cons] at hnd
    rcases List.mem_cons.mp hm with h | h
    · subst h
      rw [foldlSet, List.foldl_cons, ← foldlSet,
        foldlSet_lookup_not_mem _ _ _ _ hnd.1, dictLookup_dictSet, if_pos rfl]
    · exact ih _ hnd.2 h

theorem foldlSet_fresh (g : String → ℚ) (acc : Dict) (l : List (String × ℚ))
    (hf : ∀ k ∈ l.map Prod.fst, k ∉ dictKeys acc)
    (hnd : (l.map Prod.fst).Nodup) :
    foldlSet g acc l = acc ++ l.map (fun p => (p.1, g p.1)) := by
  induction l generalizing acc with
  | nil => simp [foldlSet]
  | cons p t ih =>
    simp only [List.map_cons, List.nodup_cons] at hnd
    rw [foldlSet, List.foldl_cons, ← foldlSet,
      dictSet_of_not_mem _ _ _ (hf p.1 (by simp)),
      ih _ ?_ hnd.2, List.map_cons, List.append_assoc]
    rfl
    intro k hk
    simp only [dictKeys, List.map_append, List.mem_append, not_or]
    refine ⟨hf k (by simp [hk]), ?_⟩
    simp only [List.map_cons, List.map_nil, List.mem_singleton]
    exact fun e => hnd.1 (e ▸ hk)

/-! ## `pollute` lemmas -/

theorem pollute_eq_foldlSet (abundance pollutants : Dict) :
    pollute abundance pollutants =
      foldlSet
        (fun k => dictGet abundance k - dictGet abundance k * dictValuesSum pollutants)
        pollutants abundance := rfl

theorem pollute_lookup_of_mem (abundance pollutants : Dict) (n : String) (s : ℚ)
    (hnd : (dictKeys abundance).Nodup) (hm : (n, s) ∈ abundance) :
    dictLookup (pollute abundance pollutants) n =
      some (s - s * dictValuesSum pollutants) := by
  rw [pollute_eq_foldlSet,
    foldlSet_lookup_mem _ _ _ n s hnd hm,
    dictGet_eq_of_mem hnd hm]

theorem pollute_lookup_of_not_mem (abundance pollutants : Dict) (n : String)
    (h : n ∉ dictKeys abundance) :
    dictLookup (pollute abundance pollutants) n = dictLookup pollutants n := by
  rw [pollute_eq_foldlSet, foldlSet_lookup_not_mem _ _ _ _ h]

theorem pollute_empty (abundance : Dict) (hnd : (dictKeys abundance).Nodup) :
    pollute abundance [] = abundance := by
  rw [pollute_eq_foldlSet, foldlSet_fresh _ _ _ (by simp [dictKeys]) hnd]
  simp only [List.nil_append]
  conv_rhs => rw [← List.map_id abundance]
  refine List.map_congr_left ?_
  intro p hp
  have : dictGet abundance p.1 = p.2 := dictGet_eq_of_mem hnd (by simpa using hp)
  simp [this, dictValuesSum]

/-! ## Character-class facts -/

theorem char_isAlpha_eq_false_of_isDigit (c : Char) (h : c.isDigit = true) :
    c.isAlpha = false := by
  simp only [Char.isDigit, Char.isAlpha, Char.isUpper, Char.isLower, ge_iff_le,
    Bool.and_eq_true, decide_eq_true_eq, Bool.or_eq_false_iff,
    Bool.and_eq_false_iff] at h ⊢
  obtain ⟨h1, h2⟩ := h
  rw [UInt32.le_def, BitVec.le_def] at h1 h2
  rw [show (UInt32.toBitVec 48).toNat = 48 from rfl] at h1
  rw [show (UInt32.toBitVec 57).toNat = 57 from rfl] at h2
  refine ⟨Or.inl ?_, Or.inl ?_⟩ <;>
    simp only [decide_eq_false_iff_not] <;>
    intro hc <;>
    rw [UInt32.le_def, BitVec.le_def] at hc <;>
    [rw [show (UInt32.toBitVec 65).toNat = 65 from rfl] at hc;
     rw [show (UInt32.toBitVec 97).toNat = 97 from rfl] at hc] <;>
    omega

/-! ## Claim C9: `are_nuclides` -/

/-- C9: `are_nuclides` returns true on every list of strings each of which
is alphanumeric and contains at least one digit, returns false as soon as
some string is purely alphabetic (including the empty string) or has a
non-alphanumeric character, and returns true on the empty list. -/
theorem are_nuclides_characterisation :
    (∀ keys : List String,
        (∀ k ∈ keys, k.data.all (fun c => c.isAlpha || c.isDigit) = true ∧
          k.data.any Char.isDigit = true) →
        are_nuclides keys = true) ∧
    (∀ keys : List String,
        ((∃ k ∈ keys, k.data.all Char.isAlpha = true) ∨
         (∃ k ∈ keys, ∃ c ∈ k.data, (c.isAlpha || c.isDigit) = false)) →
        are_nuclides keys = false) ∧
    are_nuclides ([] : List String) = true := by
  refine ⟨?_, ?_, rfl⟩
  · intro keys h
    simp only [are_nuclides, Bool.and_eq_true, List.all_eq_true]
    constructor
    · intro k hk
      obtain ⟨h1, h2⟩ := h k hk
      simp only [pyIsAlnum, Bool.and_eq_true, Bool.not_eq_true']
      refine ⟨?_, h1⟩
      cases hd : k.data with
      | nil => rw [hd] at h2; simp at h2
      | cons c t => simp [hd]
    · intro k hk
      obtain ⟨h1, h2⟩ := h k hk
      obtain ⟨c, hc, hcd⟩ := List.any_eq_true.mp h2
      simp only [Bool.not_eq_true', pyIsAlpha, Bool.and_eq_false_iff]
      right
      exact List.all_eq_false.mpr
        ⟨c, hc, by rw [char_isAlpha_eq_false_of_isDigit c hcd]; simp⟩
  · intro keys h
    simp only [are_nuclides, Bool.and_eq_false_iff]
    rcases h with ⟨k, hk, hall⟩ | ⟨k, hk, c, hc, hcf⟩
    · cases hd : k.data with
      | nil =>
        left
        exact List.all_eq_false.mpr
          ⟨k, hk, by simp [pyIsAlnum, hd]⟩
      | cons c t =>
        right
        refine List.all_eq_false.mpr ⟨k, hk, ?_⟩
        simp only [Bool.not_eq_true', Bool.not_eq_false']
        simp [pyIsAlpha, hd, hd ▸ hall]
    · left
      exact List.all_eq_false.mpr
        ⟨k, hk, by simp [pyIsAlnum]; intro _; exact ⟨c, hc, by simpa using hcf⟩⟩

/-- Witness for C9 at concrete inputs. -/
theorem are_nuclides_characterisation_witness :
    are_nuclides ["U235", "H1"] = true ∧
    are_nuclides ["U235", "Fe"] = false ∧
    are_nuclides ["U-235"] = false :=
  ⟨are_nuclides_characterisation.1 ["U235", "H1"] (by decide),
   are_nuclides_characterisation.2.1 ["U235", "Fe"]
     (Or.inl ⟨"Fe", by decide, by decide⟩),
   are_nuclides_characterisation.2.1 ["U-235"]
     (Or.inr ⟨"U-235", by decide, '-', by decide, by decide⟩)⟩

/-! ## Claim C1: `pollute` on shared keys -/

/-- C1 counterexample: for abundance `{"A": 1/2}` and pollutants
`{"A": 1/10}`, `pollute` maps `"A"` to `9/20` (the rescaled base value),
not to the pollutant value `1/10` as the claim states. -/
theorem pollute_shared_key_counterexample :
    dictLookup (pollute [("A", (1:ℚ)/2)] [("A", 1/10)]) "A" = some (9/20) ∧
    ((9:ℚ)/20) ≠ 1/10 := by
  constructor
  · simp +decide [pollute, dictGet, dictLookup, dictValuesSum, dictSet]
    norm_num
  · norm_num

/-- C1 amended: for every nuclide `n` that is a key of both mappings,
`pollute` maps `n` to `abundance[n] - abundance[n] * sum(pollutants.values())`
— the rescaled base value overwrites the pollutant entry, because the loop
over `abundance` runs after `pollutants` is copied. -/
theorem pollute_shared_key_rescaled (abundance pollutants : Dict) (n : String)
    (s : ℚ) (hnd : (dictKeys abundance).Nodup) (hm : (n, s) ∈ abundance)
    (_hp : n ∈ dictKeys pollutants) :
    dictLookup (pollute abundance pollutants) n =
      some (s - s * dictValuesSum pollutants) :=
  pollute_lookup_of_mem _ _ _ _ hnd hm

/-- Witness for the amended C1 at a concrete input. -/
theorem pollute_shared_key_rescaled_witness :
    dictLookup (pollute [("A", (1:ℚ)/2)] [("A", 1/10)]) "A" =
      some (1/2 - 1/2 * dictValuesSum [("A", 1/10)]) :=
  pollute_shared_key_rescaled [("A", (1:ℚ)/2)] [("A", 1/10)] "A" (1/2)
    (by simp [dictKeys]) (List.mem_singleton.mpr rfl) (by simp [dictKeys])

/-! ## Claim C6: `pollute` with disjoint key sets -/

/-- C6: with disjoint key sets, `pollute` rescales every base nuclide by
`1 - sum(pollutants.values())` and keeps every pollutant entry; the concrete
example of the spec holds, and polluting with an empty mapping is the
identity. -/
theorem pollute_disjoint_spec (abundance pollutants : Dict)
    (hnd : (dictKeys abundance).Nodup) (hndp : (dictKeys pollutants).Nodup)
    (hdisj : ∀ k ∈ dictKeys abundance, k ∉ dictKeys pollutants) :
    (∀ n s, (n, s) ∈ abundance →
      dictLookup (pollute abundance pollutants) n =
        some (s * (1 - dictValuesSum pollutants))) ∧
    (∀ n v, (n, v) ∈ pollutants →
      dictLookup (pollute abundance pollutants) n = some v) ∧
    pollute [("A", (1:ℚ)/2), ("B", 1/2)] [("C", 1/10)] =
      [("C", 1/10), ("A", 9/20), ("B", 9/20)] ∧
    pollute abundance [] = abundance := by
  refine ⟨?_, ?_, ?_, pollute_empty _ hnd⟩
  · intro n s hm
    rw [pollute_lookup_of_mem _ _ _ _ hnd hm]
    congr 1
    ring
  · intro n v hm
    have hn : n ∈ dictKeys pollutants := by
      simpa [dictKeys] using List.mem_map_of_mem Prod.fst hm
    have hnab : n ∉ dictKeys abundance := fun hab => hdisj n hab hn
    rw [pollute_lookup_of_not_mem _ _ _ hnab]
    exact dictLookup_eq_some_of_mem hndp hm
  · simp +decide [pollute, dictGet, dictLookup, dictValuesSum, dictSet]
    norm_num

/-- Witness for C6 at a concrete input. -/
theorem pollute_disjoint_spec_witness :
    dictLookup (pollute [("A", (1:ℚ)/2), ("B", 1/2)] [("C", 1/10)]) "C" =
      some (1/10) := by
  have h := pollute_disjoint_spec [("A", (1:ℚ)/2), ("B", 1/2)] [("C", 1/10)]
    (by simp [dictKeys]) (by simp [dictKeys]) (by simp +decide [dictKeys])
  exact h.2.1 "C" (1/10) (List.mem_singleton.mpr rfl)

/-! ## `enrich` loop lemmas -/

theorem enrichStep_ok_inv {abundance enrichers : Dict} {E : String}
    {acc d : Dict} {p : String × ℚ}
    (h : enrichStep abundance enrichers E acc p = .ok d) :
    ∃ v, d = dictSet acc p.1 v := by
  unfold enrichStep at h
  split at h
  · split at h
    · injection h with h'; exact ⟨_, h'.symm⟩
    · exact Except.noConfusion h
  · split at h
    · split at h
      · injection h with h'; exact ⟨_, h'.symm⟩
      · exact Except.noConfusion h
    · split at h
      · exact Except.noConfusion h
      · split at h
        · exact Except.noConfusion h
        · split at h
          · exact Except.noConfusion h
          · injection h with h'; exact ⟨_, h'.symm⟩

theorem enrichLoop_append (abundance enrichers : Dict) (E : String)
    (acc : Dict) (l₁ l₂ : List (String × ℚ)) :
    enrichLoop abundance enrichers E acc (l₁ ++ l₂) =
      match enrichLoop abundance enrichers E acc l₁ with
      | .ok m => enrichLoop abundance enrichers E m l₂
      | .error e => .error e := by
  induction l₁ generalizing acc with
  | nil => simp [enrichLoop]
  | cons p t ih =>
    simp only [List.cons_append, enrichLoop]
    cases enrichStep abundance enrichers E acc p with
    | ok m => exact ih m
    | error e => rfl

theorem enrichLoop_lookup_not_mem {abundance enrichers : Dict} {E : String}
    {acc r : Dict} {l : List (String × ℚ)} {n : String}
    (h : enrichLoop abundance enrichers E acc l = .ok r)
    (hn : n ∉ l.map Prod.fst) :
    dictLookup r n = dictLookup acc n := by
  induction l generalizing acc with
  | nil => cases h; rfl
  | cons p t ih =>
    simp only [List.map_cons, List.mem_cons, not_or] at hn
    simp only [enrichLoop] at h
    cases hstep : enrichStep abundance enrichers E acc p with
    | error e => rw [hstep] at h; exact Except.noConfusion h
    | ok m =>
      rw [hstep] at h
      obtain ⟨v, rfl⟩ := enrichStep_ok_inv hstep
      rw [ih h hn.2, dictLookup_dictSet, if_neg (fun e => hn.1 e.symm)]

theorem enrichLoop_keys {abundance enrichers : Dict} {E : String}
    {acc r : Dict} {l : List (String × ℚ)}
    (h : enrichLoop abundance enrichers E acc l = .ok r)
    (hnd : (l.map Prod.fst).Nodup)
    (hf : ∀ k ∈ l.map Prod.fst, k ∉ dictKeys acc) :
    dictKeys r = dictKeys acc ++ l.map Prod.fst := by
  induction l generalizing acc with
  | nil => cases h; simp
  | cons p t ih =>
    simp only [List.map_cons, List.nodup_cons] at hnd
    simp only [enrichLoop] at h
    cases hstep : enrichStep abundance enrichers E acc p with
    | error e => rw [hstep] at h; exact Except.noConfusion h
    | ok m =>
      rw [hstep] at h
      obtain ⟨v, rfl⟩ := enrichStep_ok_inv hstep
      replace h : enrichLoop abundance enrichers E (dictSet acc p.1 v) t = .ok r := h
      rw [dictSet_of_not_mem _ _ _ (hf p.1 (by simp))] at h
      rw [ih h hnd.2 ?_]
      · simp [dictKeys]
      · intro k hk
        simp only [dictKeys, List.map_append, List.mem_append, not_or]
        refine ⟨hf k (by simp [hk]), ?_⟩
        simp only [List.map_cons, List.map_nil, List.mem_singleton]
        exact fun e => hnd.1 (e ▸ hk)

/-! ## Claim C10: `enrich` preserves the key set -/

/-- C10: whenever `enrich` returns without error, the result has exactly the
keys of `abundance` (in order); an enricher nuclide that is not a key of
`abundance` never appears in the result. -/
theorem enrich_keys_eq (abundance enrichers r : Dict)
    (hnd : (dictKeys abundance).Nodup)
    (hok : enrich abundance enrichers = .ok r) :
    dictKeys r = dictKeys abundance ∧
    ∀ e, e ∉ dictKeys abundance → e ∉ dictKeys r := by
  have hkeys : dictKeys r = dictKeys abundance := by
    cases enrichers with
    | nil => exact Except.noConfusion hok
    | cons p en' =>
      obtain ⟨k₀, v₀⟩ := p
      unfold enrich at hok
      have := enrichLoop_keys hok hnd (by simp [dictKeys])
      simpa [dictKeys] using this
  exact ⟨hkeys, fun e he => hkeys ▸ he⟩

/-- Witness for C10 at a concrete input. -/
theorem enrich_keys_eq_witness :
    dictKeys [("U235", (9:ℚ)/10), ("H1", 1/2)] =
      dictKeys [("U235", (1:ℚ)/2), ("H1", 1/2)] ∧
    ∀ e, e ∉ dictKeys [("U235", (1:ℚ)/2), ("H1", 1/2)] →
      e ∉ dictKeys [("U235", (9:ℚ)/10), ("H1", 1/2)] :=
  enrich_keys_eq [("U235", (1:ℚ)/2), ("H1", 1/2)] [("U235", 9/10)]
    [("U235", (9:ℚ)/10), ("H1", 1/2)] (by simp [dictKeys]) rfl

/-! ## `enrichStep` branch lemmas -/

theorem enrichStep_branch1 {abundance enrichers : Dict} {E : String}
    {acc : Dict} {n : String} {s : ℚ}
    (hc : dictContains enrichers n = true) :
    enrichStep abundance enrichers E acc (n, s) =
      match dictLookup enrichers n with
      | some v => .ok (dictSet acc n v)
      | none => .error .keyError := by
  unfold enrichStep
  simp [hc]

theorem enrichStep_branch2 {abundance enrichers : Dict} {E : String}
    {acc : Dict} {n : String} {s : ℚ}
    (hne : dictContains enrichers n = false) (helem : nuclide2element n ≠ E) :
    enrichStep abundance enrichers E acc (n, s) =
      match dictLookup abundance n with
      | some v => .ok (dictSet acc n v)
      | none => .error .keyError := by
  unfold enrichStep
  simp [hne, helem]

theorem enrichStep_branch3 {abundance enrichers : Dict} {E : String}
    {acc : Dict} {n : String} {s : ℚ}
    (hne : dictContains enrichers n = false) (helem : nuclide2element n = E) :
    enrichStep abundance enrichers E acc (n, s) =
      match dictLookup abundance n with
      | none => .error .keyError
      | some a =>
        match deltaSum abundance enrichers with
        | none => .error .keyError
        | some delta =>
          if absorberSum abundance enrichers E = 0 then .error .zeroDivision
          else .ok (dictSet acc n (a - delta * s / absorberSum abundance enrichers E)) := by
  unfold enrichStep
  simp [hne, helem]

/-! ## Claim C4: `enrich` leaves other elements unchanged -/

/-- C4: a nuclide of `abundance` that is not an enricher key and whose
element differs from the target element (the element of the first enricher
key) keeps its abundance value in any successful `enrich` result. -/
theorem enrich_other_element_unchanged (abundance : Dict) (k₀ : String)
    (v₀ : ℚ) (en' : List (String × ℚ)) (r : Dict) (n : String)
    (hnd : (dictKeys abundance).Nodup)
    (hok : enrich abundance ((k₀, v₀) :: en') = .ok r)
    (hn : n ∈ dictKeys abundance)
    (hne : dictContains ((k₀, v₀) :: en') n = false)
    (helem : nuclide2element n ≠ nuclide2element k₀) :
    dictLookup r n = dictLookup abundance n := by
  obtain ⟨p, hp, hfst⟩ := List.mem_map.mp hn
  have hs : (n, p.2) ∈ abundance := by rw [← hfst]; simpa using hp
  obtain ⟨l₁, l₂, hsplit⟩ := List.append_of_mem hs
  subst hsplit
  have hlook : dictLookup (l₁ ++ (n, p.2) :: l₂) n = some p.2 :=
    dictLookup_eq_some_of_mem hnd hs
  simp only [dictKeys, List.map_append, List.map_cons] at hnd
  have hns := List.nodup_append.mp hnd
  have hn₂ : n ∉ l₂.map Prod.fst := (List.nodup_cons.mp hns.2.1).1
  have hn₁ : n ∉ l₁.map Prod.fst := fun hmem => hns.2.2 hmem (List.mem_cons_self _ _)
  replace hok : enrichLoop (l₁ ++ (n, p.2) :: l₂) ((k₀, v₀) :: en')
      (nuclide2element k₀) [] (l₁ ++ (n, p.2) :: l₂) = .ok r := hok
  rw [enrichLoop_append] at hok
  cases h₁ : enrichLoop (l₁ ++ (n, p.2) :: l₂) ((k₀, v₀) :: en')
      (nuclide2element k₀) [] l₁ with
  | error e => rw [h₁] at hok; exact Except.noConfusion hok
  | ok m =>
    rw [h₁] at hok
    simp only [enrichLoop] at hok
    cases hstep : enrichStep (l₁ ++ (n, p.2) :: l₂) ((k₀, v₀) :: en')
        (nuclide2element k₀) m (n, p.2) with
    | error e => rw [hstep] at hok; exact Except.noConfusion hok
    | ok m₂ =>
      rw [hstep] at hok
      replace hok : enrichLoop (l₁ ++ (n, p.2) :: l₂) ((k₀, v₀) :: en')
          (nuclide2element k₀) m₂ l₂ = .ok r := hok
      rw [enrichStep_branch2 hne helem, hlook] at hstep
      replace hstep : (Except.ok (dictSet m n p.2) : Except PyErr Dict) = .ok m₂ := hstep
      injection hstep with hm₂
      rw [enrichLoop_lookup_not_mem hok hn₂, ← hm₂,
        dictLookup_dictSet, if_pos rfl, hlook]

/-- Witness for C4 at a concrete input. -/
theorem enrich_other_element_unchanged_witness :
    dictLookup [("U235", (9:ℚ)/10), ("H1", 1/2)] "H1" =
      dictLookup [("U235", (1:ℚ)/2), ("H1", 1/2)] "H1" :=
  enrich_other_element_unchanged [("U235", (1:ℚ)/2), ("H1", 1/2)] "U235"
    (9/10) [] [("U235", (9:ℚ)/10), ("H1", 1/2)] "H1"
    (by simp [dictKeys]) rfl (by simp [dictKeys]) (by decide) (by decide)

/-! ## `enrich` success characterisation -/

theorem dictLookup_mem {d : Dict} {k : String} {v : ℚ}
    (h : dictLookup d k = some v) : (k, v) ∈ d := by
  induction d with
  | nil => simp [dictLookup] at h
  | cons p t ih =>
    obtain ⟨k₀, v₀⟩ := p
    by_cases hk : k₀ = k
    · subst hk
      have hv : v₀ = v := by simpa [dictLookup] using h
      subst hv
      exact List.mem_cons_self _ _
    · simp only [dictLookup, if_neg hk] at h
      exact List.mem_cons_of_mem _ (ih h)

theorem deltaSum_eq_sum (abundance : Dict) (enrichers : List (String × ℚ))
    (h : ∀ k ∈ enrichers.map Prod.fst, k ∈ dictKeys abundance) :
    deltaSum abundance enrichers =
      some ((enrichers.map (fun q => q.2 - dictGet abundance q.1)).sum) := by
  induction enrichers with
  | nil => simp [deltaSum]
  | cons q t ih =>
    obtain ⟨k, v⟩ := q
    have hk : k ∈ dictKeys abundance := h k (by simp)
    obtain ⟨a, ha⟩ := Option.isSome_iff_exists.mp (dictLookup_isSome_iff.mpr hk)
    have hga : dictGet abundance k = a := by simp [dictGet, ha]
    rw [deltaSum, ha, ih (fun k' hk' => h k' (by simp [hk']))]
    simp only [List.map_cons, List.sum_cons, Option.some.injEq, hga]

theorem enrichLoop_ok_eq (abundance enrichers : Dict) (E : String)
    (hnd : (dictKeys abundance).Nodup)
    (hsafe : ∀ p ∈ abundance, dictContains enrichers p.1 = false →
      nuclide2element p.1 = E →
      (deltaSum abundance enrichers).isSome = true ∧
        absorberSum abundance enrichers E ≠ 0)
    (l : List (String × ℚ)) (acc : Dict)
    (hl : ∀ p ∈ l, p ∈ abundance)
    (hlnd : (l.map Prod.fst).Nodup)
    (hfresh : ∀ k ∈ l.map Prod.fst, k ∉ dictKeys acc) :
    enrichLoop abundance enrichers E acc l =
      .ok (acc ++ l.map (fun p => (p.1, enrichValue abundance enrichers E p))) := by
  induction l generalizing acc with
  | nil => simp [enrichLoop]
  | cons p t ih =>
    simp only [List.map_cons, List.nodup_cons] at hlnd
    have hpab : p ∈ abundance := hl p (by simp)
    have hstep : enrichStep abundance enrichers E acc p =
        .ok (dictSet acc p.1 (enrichValue abundance enrichers E p)) := by
      obtain ⟨n, s⟩ := p
      have hlookp : dictLookup abundance n = some s :=
        dictLookup_eq_some_of_mem hnd hpab
      cases hc : dictContains enrichers n with
      | true =>
        obtain ⟨v, hv⟩ := Option.isSome_iff_exists.mp
          (by simpa [dictContains] using hc)
        rw [enrichStep_branch1 hc, hv]
        simp [enrichValue, hc, dictGet, hv]
      | false =>
        by_cases he : nuclide2element n = E
        · obtain ⟨hds, hS⟩ := hsafe (n, s) hpab hc he
          obtain ⟨delta, hd⟩ := Option.isSome_iff_exists.mp hds
          rw [enrichStep_branch3 hc he, hlookp, hd]
          simp [enrichValue, hc, he, hd, hS]
        · rw [enrichStep_branch2 hc he, hlookp]
          simp [enrichValue, hc, he]
    simp only [enrichLoop, hstep]
    rw [dictSet_of_not_mem _ _ _ (hfresh p.1 (by simp))]
    rw [ih _ (fun q hq => hl q (by simp [hq])) hlnd.2 ?_]
    · simp
    · intro k hk
      simp only [dictKeys, List.map_append, List.mem_append, not_or]
      refine ⟨hfresh k (by simp [hk]), ?_⟩
      simp only [List.map_cons, List.map_nil, List.mem_singleton]
      exact fun e => hlnd.1 (e ▸ hk)

theorem enrich_ok_eq (abundance : Dict) (k₀ : String) (v₀ : ℚ)
    (en' : List (String × ℚ))
    (hnd : (dictKeys abundance).Nodup)
    (hsafe : ∀ p ∈ abundance, dictContains ((k₀, v₀) :: en') p.1 = false →
      nuclide2element p.1 = nuclide2element k₀ →
      (deltaSum abundance ((k₀, v₀) :: en')).isSome = true ∧
        absorberSum abundance ((k₀, v₀) :: en') (nuclide2element k₀) ≠ 0) :
    enrich abundance ((k₀, v₀) :: en') =
      .ok (abundance.map (fun p =>
        (p.1, enrichValue abundance ((k₀, v₀) :: en') (nuclide2element k₀) p))) := by
  have h := enrichLoop_ok_eq abundance ((k₀, v₀) :: en') (nuclide2element k₀)
    hnd hsafe abundance [] (fun p hp => hp) hnd (by simp [dictKeys])
  simpa [enrich] using h

/-! ## Claim C2: `enrich` when all target-element isotopes are enriched -/

/-- C2 counterexample: with abundance `{"U235": 1}` and enrichers
`{"U235": 9/10}`, every nuclide of the target element `U` in the abundance
is a key of the enrichers, yet `enrich` returns successfully — no error of
any kind is raised, because the redistribution branch that divides by the
absorber total is never executed. -/
theorem enrich_all_enriched_counterexample :
    (∀ n ∈ dictKeys [("U235", (1:ℚ))],
      nuclide2element n = nuclide2element "U235" →
      dictContains [("U235", (9:ℚ)/10)] n = true) ∧
    enrich [("U235", (1:ℚ))] [("U235", (9:ℚ)/10)] = .ok [("U235", (9:ℚ)/10)] :=
  ⟨by decide, rfl⟩

/-- C2 amended: when every nuclide of the target element in `abundance` is a
key of `enrichers`, `enrich` does not fail at all: it returns successfully,
mapping every abundance entry through its branch value (the division by the
absorber total `S` is never evaluated, so no divide-by-zero condition — let
alone a domain error — arises). -/
theorem enrich_all_enriched_ok (abundance : Dict) (k₀ : String) (v₀ : ℚ)
    (en' : List (String × ℚ))
    (hnd : (dictKeys abundance).Nodup)
    (hall : ∀ n ∈ dictKeys abundance,
      nuclide2element n = nuclide2element k₀ →
      dictContains ((k₀, v₀) :: en') n = true) :
    enrich abundance ((k₀, v₀) :: en') =
      .ok (abundance.map (fun p =>
        (p.1, enrichValue abundance ((k₀, v₀) :: en') (nuclide2element k₀) p))) :=
  enrich_ok_eq abundance k₀ v₀ en' hnd (fun p hp hc he => by
    rw [hall p.1 (List.mem_map_of_mem Prod.fst hp) he] at hc
    exact Bool.noConfusion hc)

/-- Witness for the amended C2 at a concrete input. -/
theorem enrich_all_enriched_ok_witness :
    enrich [("U238", (1:ℚ))] [("U238", (4:ℚ)/5)] = .ok [("U238", (4:ℚ)/5)] :=
  enrich_all_enriched_ok [("U238", (1:ℚ))] "U238" ((4:ℚ)/5) []
    (by simp [dictKeys]) (by decide)

/-! ## Claim C5: identity enrichment -/

/-- C5 counterexample: enrichers equal to the natural fractions of the
targeted isotopes (`{"U235": 1/2}` with `abundance["U235"] = 1/2`), but the
remaining natural isotope of uranium has zero abundance, so `S = 0` and
`enrich` raises ZeroDivisionError instead of returning `abundance`
unchanged — Python evaluates `Δ·share/S` without short-circuiting on
`Δ = 0`. -/
theorem enrich_identity_counterexample :
    (∀ q ∈ [("U235", (1:ℚ)/2)],
      dictLookup [("U235", (1:ℚ)/2), ("U238", 0), ("H1", 1/2)] q.1 = some q.2) ∧
    enrich [("U235", (1:ℚ)/2), ("U238", 0), ("H1", 1/2)] [("U235", (1:ℚ)/2)] =
      .error PyErr.zeroDivision := by
  constructor
  · intro q hq
    rw [List.mem_singleton] at hq
    subst hq
    rfl
  · have hS : absorberSum [("U235", (1:ℚ)/2), ("U238", 0), ("H1", 1/2)]
        [("U235", (1:ℚ)/2)] (nuclide2element "U235") = 0 := by
      show ((0:ℚ) + 0) = 0
      norm_num
    have hstep2 : enrichStep [("U235", (1:ℚ)/2), ("U238", 0), ("H1", 1/2)]
        [("U235", (1:ℚ)/2)] (nuclide2element "U235") [("U235", (1:ℚ)/2)]
        ("U238", 0) = .error PyErr.zeroDivision := by
      rw [enrichStep_branch3 (by decide) (by decide)]
      simp only [show dictLookup [("U235", (1:ℚ)/2), ("U238", 0), ("H1", 1/2)]
          "U238" = some (0:ℚ) from rfl,
        show deltaSum [("U235", (1:ℚ)/2), ("U238", 0), ("H1", 1/2)]
          [("U235", (1:ℚ)/2)] = some ((1:ℚ)/2 - 1/2 + 0) from rfl,
        hS, eq_self_iff_true, if_true]
    have h0 : enrich [("U235", (1:ℚ)/2), ("U238", 0), ("H1", 1/2)]
        [("U235", (1:ℚ)/2)] =
        enrichLoop [("U235", (1:ℚ)/2), ("U238", 0), ("H1", 1/2)]
          [("U235", (1:ℚ)/2)] (nuclide2element "U235") [("U235", (1:ℚ)/2)]
          [("U238", 0), ("H1", 1/2)] := rfl
    rw [h0]
    simp only [enrichLoop, hstep2]

/-- C5 amended: if additionally either the non-targeted isotopes of the
target element have nonzero total abundance `S`, or every isotope of the
target element in `abundance` is itself a key of `enrichers`, then `enrich`
with enrichers exactly equal to the natural fractions of the targeted
isotopes returns `abundance` unchanged (identity enrichment, `Δ = 0`);
without that proviso the division `Δ·share/S` raises ZeroDivisionError when
`S = 0` even though `Δ = 0`. -/
theorem enrich_identity (abundance : Dict) (k₀ : String) (v₀ : ℚ)
    (en' : List (String × ℚ))
    (hnd : (dictKeys abundance).Nodup)
    (hvals : ∀ q ∈ ((k₀, v₀) :: en'), dictLookup abundance q.1 = some q.2)
    (hside : absorberSum abundance ((k₀, v₀) :: en') (nuclide2element k₀) ≠ 0 ∨
      (∀ n ∈ dictKeys abundance, nuclide2element n = nuclide2element k₀ →
        dictContains ((k₀, v₀) :: en') n = true)) :
    enrich abundance ((k₀, v₀) :: en') = .ok abundance := by
  have hsub : ∀ k ∈ ((k₀, v₀) :: en').map Prod.fst, k ∈ dictKeys abundance := by
    intro k hk
    obtain ⟨q, hq, rfl⟩ := List.mem_map.mp hk
    exact dictLookup_isSome_iff.mp (by simp [hvals q hq])
  have hds : deltaSum abundance ((k₀, v₀) :: en') = some 0 := by
    rw [deltaSum_eq_sum _ _ hsub]
    congr 1
    refine List.sum_eq_zero ?_
    intro x hx
    obtain ⟨q, hq, rfl⟩ := List.mem_map.mp hx
    rw [dictGet, hvals q hq]
    simp
  have hsafe : ∀ p ∈ abundance, dictContains ((k₀, v₀) :: en') p.1 = false →
      nuclide2element p.1 = nuclide2element k₀ →
      (deltaSum abundance ((k₀, v₀) :: en')).isSome = true ∧
        absorberSum abundance ((k₀, v₀) :: en') (nuclide2element k₀) ≠ 0 := by
    intro p hp hc he
    refine ⟨by simp [hds], ?_⟩
    rcases hside with h | h
    · exact h
    · rw [h p.1 (List.mem_map_of_mem Prod.fst hp) he] at hc
      exact Bool.noConfusion hc
  rw [enrich_ok_eq abundance k₀ v₀ en' hnd hsafe]
  congr 1
  conv_rhs => rw [← List.map_id abundance]
  refine List.map_congr_left ?_
  intro p hp
  have hlp : dictLookup abundance p.1 = some p.2 := by
    obtain ⟨n, s⟩ := p
    exact dictLookup_eq_some_of_mem hnd hp
  have hval : enrichValue abundance ((k₀, v₀) :: en') (nuclide2element k₀) p
      = p.2 := by
    unfold enrichValue
    by_cases hc : dictContains ((k₀, v₀) :: en') p.1 = true
    · rw [if_pos hc]
      obtain ⟨w, hw⟩ := Option.isSome_iff_exists.mp
        (by simpa [dictContains] using hc)
      have h2 := hvals _ (dictLookup_mem hw)
      rw [hlp] at h2
      injection h2 with h2
      rw [dictGet, hw, Option.getD_some]
      exact h2.symm
    · rw [if_neg hc]
      by_cases he : nuclide2element p.1 ≠ nuclide2element k₀
      · rw [if_pos he]
      · rw [if_neg he, hds]
        simp
  rw [hval, Prod.mk.eta]
  rfl

/-- Witness for the amended C5 at a concrete input. -/
theorem enrich_identity_witness :
    enrich [("U235", (1:ℚ)/2), ("U238", 1/2)] [("U235", (1:ℚ)/2)] =
      .ok [("U235", (1:ℚ)/2), ("U238", 1/2)] :=
  enrich_identity [("U235", (1:ℚ)/2), ("U238", 1/2)] "U235" ((1:ℚ)/2) []
    (by simp [dictKeys])
    (by intro q hq; rw [List.mem_singleton] at hq; subst hq; rfl)
    (Or.inl (by
      have h : absorberSum [("U235", (1:ℚ)/2), ("U238", 1/2)]
          [("U235", (1:ℚ)/2)] (nuclide2element "U235") = (1:ℚ)/2 + 0 := rfl
      rw [h]
      norm_num))

/-! ## Sum bookkeeping lemmas for mass conservation -/

theorem filter_map_fst_pres (l : List (String × ℚ)) (g : String × ℚ → ℚ)
    (P : String → Bool) :
    (l.map (fun p => (p.1, g p))).filter (fun p => P p.1) =
      (l.filter (fun p => P p.1)).map (fun p => (p.1, g p)) := by
  induction l with
  | nil => rfl
  | cons p t ih =>
    by_cases hP : P p.1 <;> simp [List.filter_cons, hP, ih]

theorem keys_filter (l : List (String × ℚ)) (P : String → Bool) :
    dictKeys (l.filter (fun p => P p.1)) = (dictKeys l).filter P := by
  induction l with
  | nil => rfl
  | cons p t ih =>
    by_cases h : P p.1 <;> simp [dictKeys, List.filter_cons, h, ih] <;>
      simpa [dictKeys] using ih

theorem sum_split (l : List (String × ℚ)) (q : String × ℚ → Bool)
    (h : String × ℚ → ℚ) :
    (l.map h).sum =
      ((l.filter q).map h).sum + ((l.filter (fun x => !q x)).map h).sum := by
  induction l with
  | nil => simp
  | cons x t ih =>
    by_cases hq : q x <;> simp [List.filter_cons, hq, ih] <;> ring

theorem sum_map_sub (l : List (String × ℚ)) (f g : String × ℚ → ℚ) :
    (l.map (fun x => f x - g x)).sum = (l.map f).sum - (l.map g).sum := by
  induction l with
  | nil => simp
  | cons x t ih => simp [ih]; ring

theorem sum_map_mul_const (l : List (String × ℚ)) (h : String × ℚ → ℚ) (c : ℚ) :
    (l.map (fun p => h p * c)).sum = (l.map h).sum * c := by
  induction l with
  | nil => simp
  | cons x t ih => simp [ih]; ring

theorem sum_map_key_fun (l : List (String × ℚ)) (g : String → ℚ) :
    (l.map (fun p => g p.1)).sum = ((dictKeys l).map g).sum := by
  rw [dictKeys, List.map_map]
  rfl

theorem sum_keys_eq_of_toFinset_eq (l₁ l₂ : List String) (g : String → ℚ)
    (h₁ : l₁.Nodup) (h₂ : l₂.Nodup) (h : l₁.toFinset = l₂.toFinset) :
    (l₁.map g).sum = (l₂.map g).sum := by
  rw [← List.sum_toFinset g h₁, ← List.sum_toFinset g h₂, h]

theorem map_dictGet_self (l : List (String × ℚ))
    (hnd : (dictKeys l).Nodup) :
    l.map (fun q => dictGet l q.1) = l.map Prod.snd := by
  refine List.map_congr_left ?_
  intro q hq
  obtain ⟨k, v⟩ := q
  exact dictGet_eq_of_mem hnd hq

/-! ## Claim C3: `enrich` conserves mass within the target element -/

/-- C3: when all enricher keys are nuclides of the target element and keys
of `abundance`, and the absorber total `S` is nonzero, a successful `enrich`
leaves the total abundance of the target element's nuclides unchanged. -/
theorem enrich_element_mass_conserved (abundance : Dict) (k₀ : String)
    (v₀ : ℚ) (en' : List (String × ℚ)) (r : Dict)
    (hnd : (dictKeys abundance).Nodup)
    (hennd : (dictKeys ((k₀, v₀) :: en')).Nodup)
    (helems : ∀ k ∈ dictKeys ((k₀, v₀) :: en'),
      nuclide2element k = nuclide2element k₀)
    (hsub : ∀ k ∈ dictKeys ((k₀, v₀) :: en'), k ∈ dictKeys abundance)
    (hS : absorberSum abundance ((k₀, v₀) :: en') (nuclide2element k₀) ≠ 0)
    (hok : enrich abundance ((k₀, v₀) :: en') = .ok r) :
    ((r.filter
        (fun p => nuclide2element p.1 == nuclide2element k₀)).map Prod.snd).sum =
    ((abundance.filter
        (fun p => nuclide2element p.1 == nuclide2element k₀)).map Prod.snd).sum := by
  have hds := deltaSum_eq_sum abundance ((k₀, v₀) :: en') hsub
  have hchar := enrich_ok_eq abundance k₀ v₀ en' hnd
    (fun p hp hc he => ⟨by simp [hds], hS⟩)
  rw [hok] at hchar
  injection hchar with hr
  subst hr
  rw [filter_map_fst_pres abundance
    (fun p => enrichValue abundance ((k₀, v₀) :: en') (nuclide2element k₀) p)
    (fun k => nuclide2element k == nuclide2element k₀)]
  have hmm : ((abundance.filter
        (fun p => nuclide2element p.1 == nuclide2element k₀)).map
          (fun p => (p.1,
            enrichValue abundance ((k₀, v₀) :: en') (nuclide2element k₀) p))).map
        Prod.snd =
      (abundance.filter
        (fun p => nuclide2element p.1 == nuclide2element k₀)).map
          (fun p => enrichValue abundance ((k₀, v₀) :: en') (nuclide2element k₀) p) := by
    rw [List.map_map]
    rfl
  rw [hmm]
  rw [sum_split (abundance.filter
        (fun p => nuclide2element p.1 == nuclide2element k₀))
      (fun p => dictContains ((k₀, v₀) :: en') p.1)
      (fun p => enrichValue abundance ((k₀, v₀) :: en') (nuclide2element k₀) p),
    sum_split (abundance.filter
        (fun p => nuclide2element p.1 == nuclide2element k₀))
      (fun p => dictContains ((k₀, v₀) :: en') p.1)
      Prod.snd]
  have hndA : (dictKeys ((abundance.filter
      (fun p => nuclide2element p.1 == nuclide2element k₀)).filter
      (fun p => dictContains ((k₀, v₀) :: en') p.1))).Nodup := by
    rw [keys_filter (abundance.filter
        (fun p => nuclide2element p.1 == nuclide2element k₀))
        (fun k => dictContains ((k₀, v₀) :: en') k),
      keys_filter abundance (fun k => nuclide2element k == nuclide2element k₀)]
    exact (hnd.filter _).filter _
  have hkeysA : (dictKeys ((abundance.filter
      (fun p => nuclide2element p.1 == nuclide2element k₀)).filter
      (fun p => dictContains ((k₀, v₀) :: en') p.1))).toFinset =
      (dictKeys ((k₀, v₀) :: en')).toFinset := by
    ext k
    simp only [List.mem_toFinset]
    rw [keys_filter (abundance.filter
        (fun p => nuclide2element p.1 == nuclide2element k₀))
        (fun k => dictContains ((k₀, v₀) :: en') k),
      keys_filter abundance (fun k => nuclide2element k == nuclide2element k₀)]
    simp only [List.mem_filter]
    constructor
    · rintro ⟨⟨hk, hF⟩, hC⟩
      exact dictContains_iff.mp hC
    · intro hk
      exact ⟨⟨hsub k hk, by simp [helems k hk]⟩, dictContains_iff.mpr hk⟩
  have hA1 : (((abundance.filter
      (fun p => nuclide2element p.1 == nuclide2element k₀)).filter
      (fun p => dictContains ((k₀, v₀) :: en') p.1)).map
      (fun p => enrichValue abundance ((k₀, v₀) :: en') (nuclide2element k₀) p)).sum =
      (((k₀, v₀) :: en').map Prod.snd).sum := by
    have e1 : ((abundance.filter
        (fun p => nuclide2element p.1 == nuclide2element k₀)).filter
        (fun p => dictContains ((k₀, v₀) :: en') p.1)).map
        (fun p => enrichValue abundance ((k₀, v₀) :: en') (nuclide2element k₀) p) =
        ((abundance.filter
        (fun p => nuclide2element p.1 == nuclide2element k₀)).filter
        (fun p => dictContains ((k₀, v₀) :: en') p.1)).map
        (fun p => dictGet ((k₀, v₀) :: en') p.1) := by
      refine List.map_congr_left ?_
      intro p hp
      have hc := (List.mem_filter.mp hp).2
      simp [enrichValue, hc]
    rw [e1, sum_map_key_fun, sum_keys_eq_of_toFinset_eq _ _ _ hndA
      (by exact hennd) hkeysA, ← sum_map_key_fun, map_dictGet_self _ hennd]
  have hA2 : (((abundance.filter
      (fun p => nuclide2element p.1 == nuclide2element k₀)).filter
      (fun p => dictContains ((k₀, v₀) :: en') p.1)).map Prod.snd).sum =
      (((k₀, v₀) :: en').map (fun q => dictGet abundance q.1)).sum := by
    have e2 : ((abundance.filter
        (fun p => nuclide2element p.1 == nuclide2element k₀)).filter
        (fun p => dictContains ((k₀, v₀) :: en') p.1)).map Prod.snd =
        ((abundance.filter
        (fun p => nuclide2element p.1 == nuclide2element k₀)).filter
        (fun p => dictContains ((k₀, v₀) :: en') p.1)).map
        (fun p => dictGet abundance p.1) := by
      refine List.map_congr_left ?_
      intro p hp
      have hpab : p ∈ abundance :=
        List.mem_filter.mp ((List.mem_filter.mp hp).1) |>.1
      obtain ⟨n, s⟩ := p
      exact (dictGet_eq_of_mem hnd hpab).symm
    rw [e2, sum_map_key_fun, sum_keys_eq_of_toFinset_eq _ _ _ hndA
      (by exact hennd) hkeysA, ← sum_map_key_fun]
  have hSB : (((abundance.filter
      (fun p => nuclide2element p.1 == nuclide2element k₀)).filter
      (fun p => !dictContains ((k₀, v₀) :: en') p.1)).map Prod.snd).sum =
      absorberSum abundance ((k₀, v₀) :: en') (nuclide2element k₀) := by
    rw [absorberSum, List.filter_filter]
    congr 1
    refine congrArg _ (List.filter_congr ?_)
    intro p hp
    rw [Bool.and_comm]
  have hB1 : (((abundance.filter
      (fun p => nuclide2element p.1 == nuclide2element k₀)).filter
      (fun p => !dictContains ((k₀, v₀) :: en') p.1)).map
      (fun p => enrichValue abundance ((k₀, v₀) :: en') (nuclide2element k₀) p)).sum =
      absorberSum abundance ((k₀, v₀) :: en') (nuclide2element k₀) -
        ((((k₀, v₀) :: en').map Prod.snd).sum -
          (((k₀, v₀) :: en').map (fun q => dictGet abundance q.1)).sum) := by
    have e3 : ((abundance.filter
        (fun p => nuclide2element p.1 == nuclide2element k₀)).filter
        (fun p => !dictContains ((k₀, v₀) :: en') p.1)).map
        (fun p => enrichValue abundance ((k₀, v₀) :: en') (nuclide2element k₀) p) =
        ((abundance.filter
        (fun p => nuclide2element p.1 == nuclide2element k₀)).filter
        (fun p => !dictContains ((k₀, v₀) :: en') p.1)).map
        (fun p => p.2 - p.2 *
          (((((k₀, v₀) :: en').map (fun q => q.2 - dictGet abundance q.1)).sum) /
            absorberSum abundance ((k₀, v₀) :: en') (nuclide2element k₀))) := by
      refine List.map_congr_left ?_
      intro p hp
      obtain ⟨hp1, hcB⟩ := List.mem_filter.mp hp
      have hcB' : dictContains ((k₀, v₀) :: en') p.1 = false := by
        simpa using hcB
      have hF : nuclide2element p.1 = nuclide2element k₀ := by
        have := (List.mem_filter.mp hp1).2
        simpa using this
      simp only [enrichValue, hcB', Bool.false_eq_true, if_false, hF,
        ne_eq, not_true_eq_false, hds, Option.getD_some]
      ring
    rw [e3]
    have e4 := sum_map_sub ((abundance.filter
        (fun p => nuclide2element p.1 == nuclide2element k₀)).filter
        (fun p => !dictContains ((k₀, v₀) :: en') p.1))
      Prod.snd
      (fun p => p.2 *
        (((((k₀, v₀) :: en').map (fun q => q.2 - dictGet abundance q.1)).sum) /
          absorberSum abundance ((k₀, v₀) :: en') (nuclide2element k₀)))
    rw [e4, sum_map_mul_const, hSB]
    rw [mul_div_assoc', mul_div_cancel_left₀ _ hS]
    congr 1
    rw [sum_map_sub]
  rw [hA1, hA2, hB1, hSB]
  ring

/-- Witness for C3 at a concrete input. -/
theorem enrich_element_mass_conserved_witness :
    ((([("U235", (1:ℚ)/2), ("U238", 1/2)].map (fun p => (p.1,
        enrichValue [("U235", (1:ℚ)/2), ("U238", 1/2)] [("U235", (9:ℚ)/10)]
          (nuclide2element "U235") p))).filter
        (fun p => nuclide2element p.1 == nuclide2element "U235")).map
        Prod.snd).sum =
    (([("U235", (1:ℚ)/2), ("U238", 1/2)].filter
        (fun p => nuclide2element p.1 == nuclide2element "U235")).map
        Prod.snd).sum := by
  have hS : absorberSum [("U235", (1:ℚ)/2), ("U238", 1/2)]
      [("U235", (9:ℚ)/10)] (nuclide2element "U235") = (1:ℚ)/2 + 0 := rfl
  refine enrich_element_mass_conserved [("U235", (1:ℚ)/2), ("U238", 1/2)]
    "U235" ((9:ℚ)/10) [] _ (by simp [dictKeys]) (by simp [dictKeys])
    (by decide) (by decide) (by rw [hS]; norm_num) ?_
  exact enrich_ok_eq [("U235", (1:ℚ)/2), ("U238", 1/2)] "U235" ((9:ℚ)/10) []
    (by simp [dictKeys])
    (fun p hp hc he => ⟨by
        rw [deltaSum_eq_sum [("U235", (1:ℚ)/2), ("U238", 1/2)]
          [("U235", (9:ℚ)/10)] (by decide)]
        rfl,
      by rw [hS]; norm_num⟩)

/-! ## `dictOfList` lemmas for `unfold_composite` -/

theorem foldl_dictSet_fresh (acc : Dict) (l : List (String × ℚ))
    (hf : ∀ k ∈ l.map Prod.fst, k ∉ dictKeys acc)
    (hnd : (l.map Prod.fst).Nodup) :
    l.foldl (fun acc kv => dictSet acc kv.1 kv.2) acc = acc ++ l := by
  induction l generalizing acc with
  | nil => simp
  | cons p t ih =>
    simp only [List.map_cons, List.nodup_cons] at hnd
    simp only [List.foldl_cons]
    rw [dictSet_of_not_mem _ _ _ (hf p.1 (by simp)), ih _ ?_ hnd.2]
    · simp
    · intro k hk
      rw [dictKeys, List.map_append]
      simp only [List.mem_append, List.map_cons, List.map_nil,
        List.mem_singleton, not_or]
      exact ⟨hf k (by simp [hk]), fun e => hnd.1 (e ▸ hk)⟩

theorem dictOfList_nodup_eq (l : List (String × ℚ))
    (hnd : (l.map Prod.fst).Nodup) : dictOfList l = l := by
  rw [dictOfList, foldl_dictSet_fresh [] l (by simp [dictKeys]) hnd]
  rfl

theorem foldl_dictSet_lookup (acc : Dict) (l : List (String × ℚ)) (n : String) :
    dictLookup (l.foldl (fun acc kv => dictSet acc kv.1 kv.2) acc) n =
      match l.reverse.find? (fun kv => kv.1 == n) with
      | some kv => some kv.2
      | none => dictLookup acc n := by
  induction l generalizing acc with
  | nil => simp
  | cons p t ih =>
    simp only [List.foldl_cons]
    rw [ih, List.reverse_cons, List.find?_append]
    cases hf : t.reverse.find? (fun kv => kv.1 == n) with
    | some q => rfl
    | none =>
      simp only [Option.none_or]
      by_cases hb : p.1 = n
      · simp [List.find?_cons, hb, dictLookup_dictSet]
      · have hb' : (p.1 == n) = false := by simpa using hb
        simp [List.find?_cons, hb', dictLookup_dictSet, hb]

theorem find?_reverse_of_nodup {l : List (String × ℚ)} {n : String} {v : ℚ}
    (hnd : (l.map Prod.fst).Nodup) (h : dictLookup l n = some v) :
    l.reverse.find? (fun kv => kv.1 == n) = some (n, v) := by
  induction l with
  | nil => simp [dictLookup] at h
  | cons p t ih =>
    obtain ⟨k₀, v₀⟩ := p
    simp only [List.map_cons, List.nodup_cons] at hnd
    rw [List.reverse_cons, List.find?_append]
    by_cases hk : k₀ = n
    · subst hk
      have hv : v₀ = v := by simpa [dictLookup] using h
      subst hv
      have hnone : t.reverse.find? (fun kv => kv.1 == k₀) = none := by
        rw [List.find?_eq_none]
        intro x hx
        simp only [beq_iff_eq]
        intro he
        exact hnd.1
          (he ▸ List.mem_map_of_mem Prod.fst (List.mem_reverse.mp hx))
      rw [hnone]
      simp [List.find?_cons]
    · have h' : dictLookup t n = some v := by simpa [dictLookup, hk] using h
      rw [ih hnd.2 h']
      rfl

theorem dictLookup_mapValues (l : List (String × ℚ)) (c : ℚ) (n : String) :
    dictLookup (l.map (fun kv => (kv.1, kv.2 * c))) n =
      (dictLookup l n).map (fun v => v * c) := by
  induction l with
  | nil => rfl
  | cons p t ih =>
    obtain ⟨k₀, v₀⟩ := p
    by_cases hk : k₀ = n <;> simp [dictLookup, hk, ih]

theorem keys_mapValues (l : List (String × ℚ)) (c : ℚ) :
    (l.map (fun kv => (kv.1, kv.2 * c))).map Prod.fst = l.map Prod.fst := by
  rw [List.map_map]
  rfl

theorem flatMap_scaled_values_sum (natural : String → Dict)
    (comp : List (String × ℚ))
    (hone : ∀ E ∈ comp.map Prod.fst, ((natural E).map Prod.snd).sum = 1) :
    ((comp.flatMap
        (fun es => (natural es.1).map (fun kv => (kv.1, kv.2 * es.2)))).map
      Prod.snd).sum = (comp.map Prod.snd).sum := by
  revert hone
  induction comp with
  | nil => intro _; rfl
  | cons es t ih =>
    intro hone
    simp only [List.flatMap_cons, List.map_append, List.sum_append,
      List.map_cons, List.sum_cons]
    rw [ih (fun E hE => hone E (by simp [hE]))]
    congr 1
    rw [List.map_map]
    rw [show (Prod.snd ∘ fun kv : String × ℚ => (kv.1, kv.2 * es.2)) =
      fun kv : String × ℚ => kv.2 * es.2 from rfl]
    rw [sum_map_mul_const (natural es.1) Prod.snd es.2,
      hone es.1 (by simp), one_mul]

/-! ## Claim C7: `unfold_composite` conserves total mass -/

/-- C7: over an abundance table in which every element of the composite has
an isotopic split summing to 1 (and, as for any real natural table, the
splits of distinct elements have pairwise distinct nuclide symbols), the
values of `unfold_composite` sum to the values of the composite, exactly
over rational arithmetic. -/
theorem unfold_composite_mass_conserved (natural : String → Dict)
    (composite : Dict)
    (hnd : (dictKeys composite).Nodup)
    (hone : ∀ E ∈ dictKeys composite, dictValuesSum (natural E) = 1)
    (hnds : ∀ E, (dictKeys (natural E)).Nodup)
    (hdisj : ∀ E F, E ≠ F → ∀ k, k ∈ dictKeys (natural E) →
      k ∉ dictKeys (natural F)) :
    dictValuesSum (unfold_composite natural composite) =
      dictValuesSum composite := by
  have hLnd : ((composite.flatMap
      (fun es => (natural es.1).map (fun kv => (kv.1, kv.2 * es.2)))).map
      Prod.fst).Nodup := by
    rw [List.map_flatMap]
    refine List.nodup_flatMap.mpr ⟨?_, ?_⟩
    · intro es hes
      rw [keys_mapValues]
      exact hnds es.1
    · have hpw : composite.Pairwise (fun a b => a.1 ≠ b.1) := by
        rw [dictKeys] at hnd
        exact List.pairwise_map.mp hnd
      refine hpw.imp ?_
      intro a b hab
      intro x hx1 hx2
      simp only [keys_mapValues] at hx1 hx2
      exact hdisj a.1 b.1 hab x hx1 hx2
  rw [unfold_composite, dictOfList_nodup_eq _ hLnd, dictValuesSum,
    dictValuesSum]
  exact flatMap_scaled_values_sum natural composite
    (fun E hE => by have h := hone E hE; rwa [dictValuesSum] at h)

/-- Witness for C7 at a concrete input (one synthetic isotope per element). -/
theorem unfold_composite_mass_conserved_witness :
    dictValuesSum (unfold_composite (fun E => [(E ++ "1", (1:ℚ))])
        [("H", (3:ℚ)/10), ("C", 7/10)]) =
      dictValuesSum [("H", (3:ℚ)/10), ("C", 7/10)] := by
  refine unfold_composite_mass_conserved (fun E => [(E ++ "1", (1:ℚ))])
    [("H", (3:ℚ)/10), ("C", 7/10)] (by simp [dictKeys]) ?_ ?_ ?_
  · intro E hE
    show ((1:ℚ) + 0) = 1
    norm_num
  · intro E
    simp [dictKeys]
  · intro E F hne k hkE hkF
    simp only [dictKeys, List.map_cons, List.map_nil,
      List.mem_singleton] at hkE hkF
    subst hkE
    apply hne
    have hdata := congrArg String.data hkF
    rw [String.data_append, String.data_append] at hdata
    have hEF : E.data = F.data := List.append_cancel_right hdata
    cases E
    cases F
    exact congrArg String.mk hEF

/-! ## Claim C8: `unfold_composite` overwrites colliding nuclides -/

/-- C8: when an earlier element's split shares a nuclide symbol `n` with a
later element's split (and no element after the later one contributes `n`),
`unfold_composite` maps `n` to the later element's contribution
`fraction * share`, silently overwriting the earlier element's value. -/
theorem unfold_composite_overwrites (natural : String → Dict)
    (c1 c3 : List (String × ℚ)) (E1 E2 n : String) (s1 s2 v2 : ℚ)
    (_hmem1 : (E1, s1) ∈ c1) (_hn1 : n ∈ dictKeys (natural E1))
    (_hE12 : E1 ≠ E2)
    (hlook2 : dictLookup (natural E2) n = some v2)
    (hnd2 : (dictKeys (natural E2)).Nodup)
    (hc3 : ∀ q ∈ c3, n ∉ dictKeys (natural q.1)) :
    dictLookup (unfold_composite natural (c1 ++ (E2, s2) :: c3)) n =
      some (v2 * s2) := by
  rw [unfold_composite, dictOfList, foldl_dictSet_lookup]
  have hCnone : ((c3.flatMap
      (fun es => (natural es.1).map (fun kv => (kv.1, kv.2 * es.2)))).reverse.find?
      (fun kv => kv.1 == n)) = none := by
    rw [List.find?_eq_none]
    intro x hx
    rw [List.mem_reverse] at hx
    obtain ⟨es, hes, hxf⟩ := List.mem_flatMap.mp hx
    simp only [beq_iff_eq]
    intro he
    apply hc3 es hes
    rw [← he]
    obtain ⟨kv, hkv, rfl⟩ := List.mem_map.mp hxf
    show kv.1 ∈ List.map Prod.fst (natural es.1)
    exact List.mem_map_of_mem Prod.fst hkv
  have hB : (((natural E2).map
      (fun kv => (kv.1, kv.2 * s2))).reverse.find? (fun kv => kv.1 == n)) =
      some (n, v2 * s2) := by
    apply find?_reverse_of_nodup
    · rw [keys_mapValues]
      exact hnd2
    · rw [dictLookup_mapValues, hlook2]
      rfl
  have hfind : (((c1 ++ (E2, s2) :: c3).flatMap
      (fun es => (natural es.1).map (fun kv => (kv.1, kv.2 * es.2)))).reverse.find?
      (fun kv => kv.1 == n)) = some (n, v2 * s2) := by
    simp only [List.flatMap_append, List.flatMap_cons, List.reverse_append,
      List.find?_append]
    rw [hCnone, hB]
    rfl
  rw [hfind]

/-- Witness for C8 at a concrete input: elements `"A"` and `"B"` both yield
nuclide `"X"`; the later element `"B"` wins. -/
theorem unfold_composite_overwrites_witness :
    dictLookup (unfold_composite
      (fun E => if E = "A" then [("X", (1:ℚ))]
        else if E = "B" then [("X", (1:ℚ)/2)] else [])
      [("A", (1:ℚ)), ("B", 2)]) "X" = some ((1:ℚ)/2 * 2) := by
  refine unfold_composite_overwrites
    (fun E => if E = "A" then [("X", (1:ℚ))]
      else if E = "B" then [("X", (1:ℚ)/2)] else [])
    [("A", (1:ℚ))] [] "A" "B" "X" 1 2 ((1:ℚ)/2)
    (List.mem_singleton.mpr rfl) ?_ (by decide) rfl ?_ (by simp)
  · show "X" ∈ dictKeys [("X", (1:ℚ))]
    simp [dictKeys]
  · show (dictKeys [("X", (1:ℚ)/2)]).Nodup
    simp [dictKeys]
